import Mathlib

/-!
Shallow embedding of the Cambrian API client (`cambrian_client.py`):
the response normalizer `parse_response`, the constructor logic of
`CambrianAPI.__init__`, and the URL construction of `_make_request`.

Records model Python dicts: an ordered association list where updating an
existing key keeps its position and replaces the value, and a new key is
appended at the end (Python 3.7+ insertion-order semantics).
-/

namespace Cambrian

/-- A column descriptor `{'name': ...}` of a columnar result-block. -/
structure ColumnInfo where
  name : String
deriving DecidableEq, Repr

/-- One result-block of the columnar response.  The `columns` and `data`
keys may be absent from the Python dict (`result.get('columns', [])`,
`result.get('data', [])`), which `Option` models. -/
structure ResultBlock (α : Type) where
  columns : Option (List ColumnInfo)
  data : Option (List (List α))

/-- A normalized record: a Python dict from column name to value,
modelled as an insertion-ordered association list. -/
abbrev Record (α : Type) := List (String × α)

/-- Python dict assignment `d[k] = v`: if the key is present its value is
replaced in place (position kept); otherwise the pair is appended. -/
def Record.insert {α : Type} (r : Record α) (k : String) (v : α) : Record α :=
  if r.any (fun p => p.1 = k) then
    r.map (fun p => if p.1 = k then (k, v) else p)
  else r ++ [(k, v)]

/-- Python dict lookup `d[k]` / `d.get(k)`: the value stored at key `k`. -/
def Record.find {α : Type} : Record α → String → Option α
  | [], _ => none
  | p :: r, k => if p.1 = k then some p.2 else Record.find r k

/-- The keys of a record, in insertion order (`list(d.keys())`). -/
def Record.keys {α : Type} (r : Record α) : List String :=
  r.map Prod.fst

/-- The inner loop of `parse_response`:
`for i, col_info in enumerate(columns): if i < len(row): row_dict[col_info['name']] = row[i]`. -/
def buildRow {α : Type} (columns : List ColumnInfo) (row : List α) : Record α :=
  columns.enum.foldl
    (fun row_dict p =>
      if h : p.1 < row.length then Record.insert row_dict p.2.name (row.get ⟨p.1, h⟩)
      else row_dict)
    []

/-- `CambrianAPI.parse_response` on a (non-`None`) response list: an empty
list returns `[]`; otherwise only the first result-block is read, and each
data row is turned into a record. -/
def parse_response {α : Type} (response : List (ResultBlock α)) : List (Record α) :=
  match response with
  | [] => []
  | result :: _ =>
    let columns := result.columns.getD []
    let data_rows := result.data.getD []
    data_rows.map (fun row => buildRow columns row)

/-- `CambrianAPI.parse_response` including the `None` argument case: the
guard `if not response or len(response) == 0` treats `None` and `[]` alike. -/
def parse_response_opt {α : Type} (response : Option (List (ResultBlock α))) :
    List (Record α) :=
  match response with
  | none => []
  | some r => parse_response r

/-- Structural-recursion form of `buildRow`: once the row is exhausted the
remaining iterations of the Python loop write nothing.
Proved equal to `buildRow` in `buildRow_eq_buildRowRec`. -/
def buildRowRec {α : Type} : List ColumnInfo → List α → Record α → Record α
  | [], _, acc => acc
  | _ :: _, [], acc => acc
  | c :: cs, v :: vs, acc => buildRowRec cs vs (Record.insert acc c.name v)

/-- Python truthiness of an optional string: `None` and `''` are falsy. -/
def pyTruthy : Option String → Bool
  | none => false
  | some s => !s.isEmpty

/-- Python `a or b` on optional strings: `b` when `a` is falsy. -/
def pyOr (a b : Option String) : Option String :=
  if pyTruthy a then a else b

/-- Python `s.rstrip('/')`: remove all trailing `'/'` characters. -/
def rstripSlashes (s : String) : String :=
  ⟨(s.data.reverse.dropWhile (fun c => c = '/')).reverse⟩

/-- Python `s.lstrip('/')`: remove all leading `'/'` characters. -/
def lstripSlashes (s : String) : String :=
  ⟨s.data.dropWhile (fun c => c = '/')⟩

/-- The fixed production endpoint used as the base-URL default. -/
def defaultBaseUrl : String := "https://opabinia.cambrian.network/api/v1"

/-- The configuration a successfully constructed client holds. -/
structure ClientConfig where
  api_key : String
  base_url : String
deriving DecidableEq, Repr

/-- `CambrianAPI.__init__`: `api_key or os.getenv('CAMBRIAN_API_KEY')`,
`(base_url or os.getenv('CAMBRIAN_BASE_URL', default)).rstrip('/')`, then
`raise ValueError` when the resulting key is falsy.  The two `os.getenv`
results are passed in as `env_api_key` / `env_base_url` (`none` = unset;
`some ''` = set to the empty string). -/
def cambrianInit (api_key base_url env_api_key env_base_url : Option String) :
    Except String ClientConfig :=
  let key := pyOr api_key env_api_key
  let burl := rstripSlashes ((pyOr base_url (some (env_base_url.getD defaultBaseUrl))).getD "")
  match key with
  | none => Except.error "API key is required"
  | some k => if k.isEmpty then Except.error "API key is required" else Except.ok ⟨k, burl⟩

/-- `_make_request` URL construction:
`url = f"{self.base_url}/{endpoint.lstrip('/')}"` where `self.base_url`
is the init-time `rstrip('/')`-ed base URL. -/
def makeRequestUrl (base_url endpoint : String) : String :=
  base_url ++ "/" ++ lstripSlashes endpoint

/-- The API key stored by a successful construction, `none` on failure. -/
def configKey : Except String ClientConfig → Option String
  | Except.ok c => some c.api_key
  | Except.error _ => none

/-- JSON-ish values for concrete examples (strings and decimal numbers). -/
inductive JsonVal : Type
  | s (x : String)
  | n (x : ℚ)
deriving DecidableEq, Repr

/-- Whether a constructor call succeeded. -/
def initOk : Except String ClientConfig → Bool
  | Except.ok _ => true
  | Except.error _ => false

/-! ### Lemmas about `Record` -/

variable {α : Type}

theorem Record.find_append_single_of_forall_ne {k : String} {v : α} :
    ∀ r : Record α, (∀ p ∈ r, p.1 ≠ k) → Record.find (r ++ [(k, v)]) k = some v
  | [], _ => by simp [Record.find]
  | p :: r, h => by
    have hp : p.1 ≠ k := h p (List.mem_cons_self p r)
    simp only [List.cons_append, Record.find, if_neg hp]
    exact Record.find_append_single_of_forall_ne r fun q hq => h q (List.mem_cons_of_mem p hq)

theorem Record.find_map_overwrite_self {k : String} {v : α} :
    ∀ r : Record α, (∃ p ∈ r, p.1 = k) →
      Record.find (r.map (fun p => if p.1 = k then (k, v) else p)) k = some v
  | [], h => by simp at h
  | p :: r, h => by
    by_cases hp : p.1 = k
    · simp [Record.find, hp]
    · simp only [List.map_cons, if_neg hp, Record.find]
      rcases h with ⟨q, hq, hqk⟩
      rcases List.mem_cons.mp hq with rfl | hq
      · exact absurd hqk hp
      · exact Record.find_map_overwrite_self r ⟨q, hq, hqk⟩

theorem Record.find_insert_self (r : Record α) (k : String) (v : α) :
    Record.find (Record.insert r k v) k = some v := by
  unfold Record.insert
  split
  case isTrue h =>
    rcases List.any_eq_true.mp h with ⟨p, hp, hpk⟩
    exact Record.find_map_overwrite_self r ⟨p, hp, of_decide_eq_true hpk⟩
  case isFalse h =>
    have h' := List.any_eq_false.mp (Bool.eq_false_iff.mpr h)
    exact Record.find_append_single_of_forall_ne r fun p hp hk =>
      (h' p hp) (decide_eq_true hk)

theorem Record.find_map_overwrite_ne {k k' : String} {v : α} (hne : k' ≠ k) :
    ∀ r : Record α,
      Record.find (r.map (fun p => if p.1 = k then (k, v) else p)) k' = Record.find r k'
  | [] => rfl
  | p :: r => by
    by_cases hp : p.1 = k
    · simp only [List.map_cons, if_pos hp, Record.find,
        if_neg (fun h : k = k' => hne h.symm),
        if_neg (fun h : p.1 = k' => hne (hp.symm.trans h).symm)]
      exact Record.find_map_overwrite_ne hne r
    · simp only [List.map_cons, if_neg hp, Record.find]
      by_cases hp' : p.1 = k'
      · rw [if_pos hp', if_pos hp']
      · rw [if_neg hp', if_neg hp']
        exact Record.find_map_overwrite_ne hne r

theorem Record.find_append_single_ne {k k' : String} {v : α} (hne : k' ≠ k) :
    ∀ r : Record α, Record.find (r ++ [(k, v)]) k' = Record.find r k'
  | [] => by simp [Record.find, if_neg (fun h : k = k' => hne h.symm)]
  | p :: r => by
    simp only [List.cons_append, Record.find]
    by_cases hp : p.1 = k'
    · rw [if_pos hp, if_pos hp]
    · rw [if_neg hp, if_neg hp]
      exact Record.find_append_single_ne hne r

theorem Record.find_insert_ne (r : Record α) {k k' : String} (v : α) (hne : k' ≠ k) :
    Record.find (Record.insert r k v) k' = Record.find r k' := by
  unfold Record.insert
  split
  · exact Record.find_map_overwrite_ne hne r
  · exact Record.find_append_single_ne hne r

theorem Record.mem_insert {r : Record α} {k : String} {v : α} {x : String × α}
    (hx : x ∈ Record.insert r k v) : x = (k, v) ∨ x ∈ r := by
  unfold Record.insert at hx
  split at hx
  · rcases List.mem_map.mp hx with ⟨p, hp, hpx⟩
    by_cases hpk : p.1 = k
    · left; rw [← hpx, if_pos hpk]
    · right; rwa [← hpx, if_neg hpk]
  · rcases List.mem_append.mp hx with hx | hx
    · right; exact hx
    · left; simpa using hx

theorem Record.length_insert_le (r : Record α) (k : String) (v : α) :
    (Record.insert r k v).length ≤ r.length + 1 := by
  unfold Record.insert
  split
  · rw [List.length_map]; exact Nat.le_succ _
  · rw [List.length_append]; exact Nat.le_refl _

theorem Record.insert_eq_append_of_not_mem_keys {r : Record α} {k : String} (v : α)
    (h : k ∉ Record.keys r) : Record.insert r k v = r ++ [(k, v)] := by
  unfold Record.insert
  rw [if_neg (fun hc => by
    rcases List.any_eq_true.mp hc with ⟨p, hp, hpk⟩
    exact h (List.mem_map.mpr ⟨p, hp, of_decide_eq_true hpk⟩))]

theorem Record.find_eq_of_mem_of_nodup_keys :
    ∀ {r : Record α} {k : String} {v : α},
      (Record.keys r).Nodup → (k, v) ∈ r → Record.find r k = some v
  | [], _, _, _, h => by simp at h
  | p :: r, k, v, hnd, h => by
    simp only [Record.keys, List.map_cons] at hnd
    rcases List.mem_cons.mp h with rfl | h
    · simp [Record.find]
    · have hk : k ∈ Record.keys r := List.mem_map.mpr ⟨(k, v), h, rfl⟩
      have hp : p.1 ≠ k := fun hc => (List.nodup_cons.mp hnd).1 (hc ▸ hk)
      rw [Record.find, if_neg hp]
      exact Record.find_eq_of_mem_of_nodup_keys (List.nodup_cons.mp hnd).2 h

/-! ### Lemmas about `buildRow` -/

theorem buildRowRec_nil_row (cols : List ColumnInfo) (acc : Record α) :
    buildRowRec cols [] acc = acc := by
  cases cols <;> rfl

theorem buildRow_go (row : List α) :
    ∀ (cols : List ColumnInfo) (n : Nat) (acc : Record α),
      (cols.enumFrom n).foldl
        (fun row_dict p =>
          if h : p.1 < row.length then Record.insert row_dict p.2.name (row.get ⟨p.1, h⟩)
          else row_dict)
        acc
      = buildRowRec cols (row.drop n) acc
  | [], n, acc => rfl
  | c :: cs, n, acc => by
    rw [List.enumFrom_cons, List.foldl_cons]
    by_cases h : n < row.length
    · rw [dif_pos h, buildRow_go row cs (n + 1), List.drop_eq_getElem_cons h]
      rfl
    · rw [dif_neg h, buildRow_go row cs (n + 1)]
      have hle : row.length ≤ n := Nat.le_of_not_lt h
      rw [List.drop_eq_nil_of_le hle, List.drop_eq_nil_of_le (Nat.le_succ_of_le hle),
        buildRowRec_nil_row, buildRowRec_nil_row]

theorem buildRow_eq_buildRowRec (cols : List ColumnInfo) (row : List α) :
    buildRow cols row = buildRowRec cols row [] := by
  have h := buildRow_go row cols 0 []
  simpa [buildRow, List.enum] using h

theorem find_buildRowRec (nm : String) :
    ∀ (cols : List ColumnInfo) (row : List α) (acc : Record α),
      Record.find (buildRowRec cols row acc) nm =
        ((((cols.zip row).reverse).find? (fun p => p.1.name = nm)).map Prod.snd).or
          (Record.find acc nm)
  | [], row, acc => by simp [buildRowRec]
  | c :: cs, [], acc => by simp [buildRowRec_nil_row]
  | c :: cs, v :: vs, acc => by
    show Record.find (buildRowRec cs vs (Record.insert acc c.name v)) nm = _
    rw [find_buildRowRec nm cs vs (Record.insert acc c.name v)]
    rw [List.zip_cons_cons, List.reverse_cons, List.find?_append]
    cases hfind : ((cs.zip vs).reverse).find? (fun p => p.1.name = nm) with
    | some q => simp [hfind]
    | none =>
      simp only [hfind, Option.map_none', Option.none_or]
      by_cases hcn : c.name = nm
      · subst hcn
        rw [Record.find_insert_self, List.find?_cons_of_pos _ (by simp)]
        rfl
      · rw [List.find?_cons_of_neg _ (by simpa using hcn)]
        simp only [List.find?_nil, Option.map_none', Option.none_or]
        exact Record.find_insert_ne acc v (fun h => hcn h.symm)

theorem mem_buildRowRec :
    ∀ (cols : List ColumnInfo) (row : List α) (acc : Record α) (x : String × α),
      x ∈ buildRowRec cols row acc →
        x ∈ acc ∨ ∃ p ∈ cols.zip row, x = (p.1.name, p.2)
  | [], row, acc, x, hx => Or.inl hx
  | c :: cs, [], acc, x, hx => Or.inl (by rwa [buildRowRec_nil_row] at hx)
  | c :: cs, v :: vs, acc, x, hx => by
    rcases mem_buildRowRec cs vs (Record.insert acc c.name v) x hx with h | ⟨p, hp, hpx⟩
    · rcases Record.mem_insert h with h | h
      · right
        exact ⟨(c, v), by simp, by simpa using h⟩
      · left; exact h
    · right
      exact ⟨p, by simp [hp], hpx⟩

theorem length_buildRowRec_le :
    ∀ (cols : List ColumnInfo) (row : List α) (acc : Record α),
      (buildRowRec cols row acc).length ≤ acc.length + (cols.zip row).length
  | [], row, acc => by simp [buildRowRec]
  | c :: cs, [], acc => by simp [buildRowRec_nil_row]
  | c :: cs, v :: vs, acc => by
    have h1 := length_buildRowRec_le cs vs (Record.insert acc c.name v)
    have h2 := Record.length_insert_le acc c.name v
    simp only [List.zip_cons_cons, List.length_cons]
    show (buildRowRec cs vs (Record.insert acc c.name v)).length ≤ _
    omega

theorem buildRowRec_eq_append_of_nodup :
    ∀ (cols : List ColumnInfo) (row : List α) (acc : Record α),
      ((cols.zip row).map (fun p => p.1.name)).Nodup →
      (∀ s ∈ Record.keys acc, s ∉ (cols.zip row).map (fun p => p.1.name)) →
      buildRowRec cols row acc = acc ++ (cols.zip row).map (fun p => (p.1.name, p.2))
  | [], row, acc, _, _ => by simp [buildRowRec]
  | c :: cs, [], acc, _, _ => by simp [buildRowRec_nil_row]
  | c :: cs, v :: vs, acc, hnd, hdisj => by
    simp only [List.zip_cons_cons, List.map_cons] at hnd hdisj ⊢
    have hnotin : c.name ∉ Record.keys acc := fun hc =>
      hdisj c.name hc (List.mem_cons_self _ _)
    show buildRowRec cs vs (Record.insert acc c.name v) = _
    rw [Record.insert_eq_append_of_not_mem_keys v hnotin]
    rw [buildRowRec_eq_append_of_nodup cs vs (acc ++ [(c.name, v)])
      (List.nodup_cons.mp hnd).2
      (by
        intro s hs
        simp only [Record.keys, List.map_append, List.mem_append] at hs
        rcases hs with hs | hs
        · exact fun hc => hdisj s hs (List.mem_cons_of_mem _ hc)
        · simp only [List.map_cons, List.map_nil, List.mem_singleton] at hs
          subst hs
          exact (List.nodup_cons.mp hnd).1)]
    simp

theorem buildRow_eq_zip_of_nodup (cols : List ColumnInfo) (row : List α)
    (hnd : ((cols.zip row).map (fun p => p.1.name)).Nodup) :
    buildRow cols row = (cols.zip row).map (fun p => (p.1.name, p.2)) := by
  rw [buildRow_eq_buildRowRec,
    buildRowRec_eq_append_of_nodup cols row [] hnd (by simp [Record.keys])]
  simp

theorem find?_reverse_eq_of_last {β : Type} (l : List β) (p : β → Bool) (j : Nat) (x : β)
    (hj : l[j]? = some x) (hx : p x = true)
    (hlast : ∀ k y, j < k → l[k]? = some y → p y = false) :
    l.reverse.find? p = some x := by
  have hsplit : l = l.take (j + 1) ++ l.drop (j + 1) := (List.take_append_drop _ _).symm
  rw [hsplit, List.reverse_append, List.find?_append]
  have hnone : ((l.drop (j + 1)).reverse).find? p = none := by
    rw [List.find?_eq_none]
    intro y hy
    rw [List.mem_reverse] at hy
    rcases List.mem_iff_getElem?.mp hy with ⟨m, hm⟩
    rw [List.getElem?_drop] at hm
    simp [hlast (j + 1 + m) y (by omega) hm]
  rw [hnone, Option.none_or]
  rw [List.take_succ, hj]
  simp only [Option.toList_some, List.reverse_append, List.reverse_singleton,
    List.singleton_append]
  exact List.find?_cons_of_pos _ hx

/-! ### Shared facts about `parse_response` -/

theorem parse_response_getElem? (b : ResultBlock α) (rest : List (ResultBlock α)) (j : Nat) :
    (parse_response (b :: rest))[j]? =
      ((b.data.getD [])[j]?).map (fun row => buildRow (b.columns.getD []) row) := by
  show ((b.data.getD []).map (fun row => buildRow (b.columns.getD []) row))[j]? = _
  rw [List.getElem?_map]

/-! ### Claim theorems -/

/-- C4: `parse_response` consults only the first result-block; its output on
`b :: rest` equals its output on `[b]`, so no record from a later block ever
appears. -/
theorem c4_first_block_only (b : ResultBlock α) (rest : List (ResultBlock α)) :
    parse_response (b :: rest) = parse_response [b] := rfl

/-- C5: a missing (`None`) response, an empty response array, and a response
whose first block has an empty `data` sequence all yield the empty record
sequence. -/
theorem c5_empty_inputs :
    parse_response_opt (α := α) none = [] ∧
    parse_response (α := α) [] = [] ∧
    ∀ (cols : Option (List ColumnInfo)) (rest : List (ResultBlock α)),
      parse_response (ResultBlock.mk cols (some []) :: rest) = [] :=
  ⟨rfl, rfl, fun _ _ => rfl⟩

/-- C6: for a non-empty response, `parse_response` yields exactly one record
per row of the first block's data, in the same order: the output length is
the data length and the `j`-th output record is built from the `j`-th row. -/
theorem c6_one_record_per_row (b : ResultBlock α) (rest : List (ResultBlock α)) :
    (parse_response (b :: rest)).length = (b.data.getD []).length ∧
    ∀ j : Nat, (parse_response (b :: rest))[j]? =
      ((b.data.getD [])[j]?).map (fun row => buildRow (b.columns.getD []) row) := by
  constructor
  · show ((b.data.getD []).map _).length = _
    rw [List.length_map]
  · intro j
    exact parse_response_getElem? b rest j

/-- C10: a first block lacking the `data` key normalizes to an empty output,
and one lacking the `columns` key yields one empty record per row; neither
raises. -/
theorem c10_missing_columns_or_data :
    (∀ (cols : Option (List ColumnInfo)) (rest : List (ResultBlock α)),
      parse_response (ResultBlock.mk cols none :: rest) = []) ∧
    (∀ (rows : List (List α)) (rest : List (ResultBlock α)),
      parse_response (ResultBlock.mk none (some rows) :: rest) = rows.map (fun _ => [])) := by
  constructor
  · intro cols rest; rfl
  · intro rows rest; rfl

/-- C1 as stated is false: with duplicate column names the record has fewer
keys than column descriptors.  With columns `a, a` (N = 2) and the row
`[1, 2]` of length 2, the record is `{'a': 2}` with a single key, not two
keys equal to the column names in order. -/
theorem c1_counterexample :
    parse_response (ResultBlock.mk (some [ColumnInfo.mk "a", ColumnInfo.mk "a"])
        (some [[1, 2]]) :: ([] : List (ResultBlock Nat))) = [[("a", 2)]] ∧
    Record.keys [("a", (2 : Nat))] = ["a"] ∧
    ["a"] ≠ [ColumnInfo.mk "a", ColumnInfo.mk "a"].map ColumnInfo.name := by
  refine ⟨by rfl, rfl, by decide⟩

/-- C1 (amended: the column names must be pairwise distinct): for a row of
length exactly N, the produced record has exactly the N column names as
keys, in their listed order, and the key from the `i`-th descriptor maps to
the `i`-th row value. -/
theorem c1_full_row_amended (cols : List ColumnInfo) (rows : List (List α))
    (rest : List (ResultBlock α)) (j : Nat) (row : List α)
    (hrow : rows[j]? = some row)
    (hnd : (cols.map ColumnInfo.name).Nodup)
    (hlen : row.length = cols.length) :
    ∃ rec : Record α,
      (parse_response (ResultBlock.mk (some cols) (some rows) :: rest))[j]? = some rec ∧
      Record.keys rec = cols.map ColumnInfo.name ∧
      ∀ i : Nat, ∀ hi : i < cols.length,
        Record.find rec (cols.get ⟨i, hi⟩).name = row[i]? := by
  have hle : cols.length ≤ row.length := Nat.le_of_eq hlen.symm
  have hzip : (cols.zip row).map (fun p => p.1.name) = cols.map ColumnInfo.name := by
    rw [show (cols.zip row).map (fun p => p.1.name)
        = ((cols.zip row).map Prod.fst).map ColumnInfo.name by rw [List.map_map]; rfl,
      List.map_fst_zip cols row hle]
  have hnd' : ((cols.zip row).map (fun p => p.1.name)).Nodup := by rw [hzip]; exact hnd
  have hb : buildRow cols row = (cols.zip row).map (fun p => (p.1.name, p.2)) :=
    buildRow_eq_zip_of_nodup cols row hnd'
  have hkeys : Record.keys (buildRow cols row) = cols.map ColumnInfo.name := by
    rw [hb]
    show ((cols.zip row).map (fun p => (p.1.name, p.2))).map Prod.fst = _
    rw [List.map_map, ← hzip]
    rfl
  refine ⟨buildRow cols row, ?_, hkeys, ?_⟩
  · rw [parse_response_getElem?]
    show (rows[j]?).map _ = _
    rw [hrow]
    rfl
  · intro i hi
    have hi' : i < row.length := by omega
    have hmem : ((cols.get ⟨i, hi⟩).name, row.get ⟨i, hi'⟩) ∈ buildRow cols row := by
      rw [hb]
      refine List.getElem?_mem (n := i) ?_
      rw [List.getElem?_map,
        show (cols.zip row)[i]? = some (cols.get ⟨i, hi⟩, row.get ⟨i, hi'⟩) from
          List.getElem?_zip_eq_some.mpr
            ⟨by simp [List.get_eq_getElem], by simp [List.get_eq_getElem]⟩]
      rfl
    rw [Record.find_eq_of_mem_of_nodup_keys (by rw [hkeys]; exact hnd) hmem,
      List.getElem?_eq_getElem hi']
    rfl

/-- Witness for the amended C1 at columns `a, b` and the row `[10, 20]`. -/
theorem c1_full_row_amended_witness :
    ∃ rec : Record Nat,
      (parse_response (ResultBlock.mk (some [ColumnInfo.mk "a", ColumnInfo.mk "b"])
          (some [[10, 20]]) :: ([] : List (ResultBlock Nat))))[0]? = some rec ∧
      Record.keys rec = [ColumnInfo.mk "a", ColumnInfo.mk "b"].map ColumnInfo.name ∧
      ∀ i : Nat, ∀ hi : i < [ColumnInfo.mk "a", ColumnInfo.mk "b"].length,
        Record.find rec ([ColumnInfo.mk "a", ColumnInfo.mk "b"].get ⟨i, hi⟩).name
          = [10, 20][i]? :=
  c1_full_row_amended [ColumnInfo.mk "a", ColumnInfo.mk "b"] [[10, 20]] [] 0 [10, 20]
    rfl (by decide) rfl

/-- C2 as stated is false with duplicate column names: with columns
`a, b, a` and the short row `[1]` (k = 1 < N = 3), the record is `{'a': 1}`,
yet the name of column 2 — a column at index ≥ k, which the claim requires
to be absent — is `a`, which is present among the record's keys. -/
theorem c2_counterexample :
    parse_response (ResultBlock.mk
        (some [ColumnInfo.mk "a", ColumnInfo.mk "b", ColumnInfo.mk "a"])
        (some [[1]]) :: ([] : List (ResultBlock Nat))) = [[("a", 1)]] ∧
    ([ColumnInfo.mk "a", ColumnInfo.mk "b", ColumnInfo.mk "a"].get ⟨2, by decide⟩).name
      ∈ Record.keys [("a", (1 : Nat))] := by
  refine ⟨by rfl, by decide⟩

/-- C2 (amended: the column names must be pairwise distinct): for a row of
length k < N the record's keys are exactly the first k column names in
order, positionally matched to the row's values, and the names of columns
k through N-1 are absent from the record. -/
theorem c2_short_row_amended (cols : List ColumnInfo) (rows : List (List α))
    (rest : List (ResultBlock α)) (j : Nat) (row : List α)
    (hrow : rows[j]? = some row)
    (hnd : (cols.map ColumnInfo.name).Nodup)
    (hk : row.length < cols.length) :
    ∃ rec : Record α,
      (parse_response (ResultBlock.mk (some cols) (some rows) :: rest))[j]? = some rec ∧
      Record.keys rec = (cols.take row.length).map ColumnInfo.name ∧
      (∀ i : Nat, ∀ hi : i < row.length,
        Record.find rec (cols.get ⟨i, by omega⟩).name = row[i]?) ∧
      (∀ i : Nat, ∀ hi : i < cols.length, row.length ≤ i →
        (cols.get ⟨i, hi⟩).name ∉ Record.keys rec) := by
  have hkle : row.length ≤ cols.length := Nat.le_of_lt hk
  have hzip0 : cols.zip row = (cols.take row.length).zip row := by
    rw [List.zip_eq_zip_take_min, Nat.min_eq_right hkle, List.take_length]
  have htlen : (cols.take row.length).length = row.length := List.length_take_of_le hkle
  have hle : (cols.take row.length).length ≤ row.length := Nat.le_of_eq htlen
  have hzip : (cols.zip row).map (fun p => p.1.name)
      = (cols.take row.length).map ColumnInfo.name := by
    rw [hzip0,
      show ((cols.take row.length).zip row).map (fun p => p.1.name)
        = (((cols.take row.length).zip row).map Prod.fst).map ColumnInfo.name by
          rw [List.map_map]; rfl,
      List.map_fst_zip _ row hle]
  have hndtake : ((cols.take row.length).map ColumnInfo.name).Nodup := by
    rw [List.map_take]
    exact (List.take_sublist _ _).nodup hnd
  have hnd' : ((cols.zip row).map (fun p => p.1.name)).Nodup := by
    rw [hzip]; exact hndtake
  have hb : buildRow cols row = (cols.zip row).map (fun p => (p.1.name, p.2)) :=
    buildRow_eq_zip_of_nodup cols row hnd'
  have hkeys : Record.keys (buildRow cols row)
      = (cols.take row.length).map ColumnInfo.name := by
    rw [hb]
    show ((cols.zip row).map (fun p => (p.1.name, p.2))).map Prod.fst = _
    rw [List.map_map, ← hzip]
    rfl
  refine ⟨buildRow cols row, ?_, hkeys, ?_, ?_⟩
  · rw [parse_response_getElem?]
    show (rows[j]?).map _ = _
    rw [hrow]
    rfl
  · intro i hi
    have hic : i < cols.length := by omega
    have hmem : ((cols.get ⟨i, hic⟩).name, row.get ⟨i, hi⟩) ∈ buildRow cols row := by
      rw [hb]
      refine List.getElem?_mem (n := i) ?_
      rw [List.getElem?_map,
        show (cols.zip row)[i]? = some (cols.get ⟨i, hic⟩, row.get ⟨i, hi⟩) from
          List.getElem?_zip_eq_some.mpr
            ⟨by simp [List.get_eq_getElem], by simp [List.get_eq_getElem]⟩]
      rfl
    rw [Record.find_eq_of_mem_of_nodup_keys (by rw [hkeys]; exact hndtake) hmem,
      List.getElem?_eq_getElem hi]
    rfl
  · intro i hi hge hc
    rw [hkeys, List.map_take] at hc
    rcases List.mem_take_iff_getElem.mp hc with ⟨m, hm, hmv⟩
    have hmrl : m < row.length := lt_of_lt_of_le (Nat.lt_min.mp hm).1 (Nat.le_refl _)
    have hmc : m < cols.length := by
      have := (Nat.lt_min.mp hm).2
      simpa using this
    have hmm : m < (cols.map ColumnInfo.name).length := by simpa using hmc
    have him : i < (cols.map ColumnInfo.name).length := by simpa using hi
    have hmi : m < i := by omega
    have h1 : (cols.map ColumnInfo.name)[m]? = some ((cols.get ⟨i, hi⟩).name) := by
      rw [List.getElem?_eq_getElem hmm]
      exact congrArg some hmv
    have h2 : (cols.map ColumnInfo.name)[i]? = some ((cols.get ⟨i, hi⟩).name) := by
      rw [List.getElem?_eq_getElem him]
      simp [List.get_eq_getElem]
    exact (List.nodup_iff_getElem?_ne_getElem?.mp hnd m i hmi him) (h1.trans h2.symm)

/-- Witness for the amended C2, the spec's worked example: columns
`symbol, price` with rows `[["SOL", 150.2], ["BTC"]]`; the second row has
length 1 < 2 and normalizes to `{"symbol": "BTC"}`, with `price` absent. -/
theorem c2_short_row_amended_witness :
    parse_response (ResultBlock.mk (some [ColumnInfo.mk "symbol", ColumnInfo.mk "price"])
        (some [[JsonVal.s "SOL", JsonVal.n 150.2], [JsonVal.s "BTC"]]) :: [])
      = [[("symbol", JsonVal.s "SOL"), ("price", JsonVal.n 150.2)],
         [("symbol", JsonVal.s "BTC")]] ∧
    (∃ rec : Record JsonVal,
      (parse_response (ResultBlock.mk (some [ColumnInfo.mk "symbol", ColumnInfo.mk "price"])
          (some [[JsonVal.s "SOL", JsonVal.n 150.2], [JsonVal.s "BTC"]]) :: []))[1]?
        = some rec ∧
      Record.keys rec
        = ([ColumnInfo.mk "symbol", ColumnInfo.mk "price"].take 1).map ColumnInfo.name ∧
      (∀ i : Nat, ∀ hi : i < 1,
        Record.find rec
            ([ColumnInfo.mk "symbol", ColumnInfo.mk "price"].get
              ⟨i, Nat.lt_trans hi (Nat.lt_succ_self 1)⟩).name
          = [JsonVal.s "BTC"][i]?) ∧
      (∀ i : Nat, ∀ hi : i < 2,
        1 ≤ i →
        ([ColumnInfo.mk "symbol", ColumnInfo.mk "price"].get ⟨i, hi⟩).name
          ∉ Record.keys rec)) :=
  ⟨by rfl,
   c2_short_row_amended [ColumnInfo.mk "symbol", ColumnInfo.mk "price"]
     [[JsonVal.s "SOL", JsonVal.n 150.2], [JsonVal.s "BTC"]] [] 1 [JsonVal.s "BTC"]
     rfl (by decide) (by decide)⟩

/-- C3: when column descriptors at positions `i < j` share a name and `j` is
the last position carrying that name that is aligned with a row value, the
record maps the shared name to the row value aligned with the later
descriptor — the later column silently overwrites the earlier one. -/
theorem c3_later_duplicate_wins (cols : List ColumnInfo) (rows : List (List α))
    (rest : List (ResultBlock α)) (r : Nat) (row : List α) (rec : Record α)
    (hrow : rows[r]? = some row)
    (hrec : (parse_response (ResultBlock.mk (some cols) (some rows) :: rest))[r]? = some rec)
    (i j : Nat) (ci cj : ColumnInfo) (vj : α)
    (hij : i < j)
    (hci : cols[i]? = some ci) (hcj : cols[j]? = some cj)
    (hname : ci.name = cj.name)
    (hvj : row[j]? = some vj)
    (hlast : ∀ k, j < k → ∀ ck vk, cols[k]? = some ck → row[k]? = some vk →
      ck.name ≠ cj.name) :
    Record.find rec cj.name = some vj := by
  rw [parse_response_getElem?] at hrec
  have hrec' : (rows[r]?).map (fun row => buildRow cols row) = some rec := hrec
  rw [hrow] at hrec'
  obtain rfl : rec = buildRow cols row := (Option.some.inj hrec').symm
  rw [buildRow_eq_buildRowRec, find_buildRowRec]
  have hfound : ((cols.zip row).reverse).find? (fun p => p.1.name = cj.name)
      = some (cj, vj) := by
    refine find?_reverse_eq_of_last (cols.zip row) _ j (cj, vj) ?_ (by simp) ?_
    · exact List.getElem?_zip_eq_some.mpr ⟨hcj, hvj⟩
    · intro k y hk hky
      rcases List.getElem?_zip_eq_some.mp hky with ⟨hc, hv⟩
      exact decide_eq_false (hlast k hk y.1 y.2 hc hv)
  rw [hfound]
  rfl

/-- Witness for C3: columns `a, b, a` with the row `[1, 2, 3]`; the record
is `{'a': 3, 'b': 2}` and the shared key `a` holds the value aligned with
the later duplicate column. -/
theorem c3_later_duplicate_wins_witness :
    Record.find [("a", 3), ("b", 2)] "a" = some (3 : Nat) :=
  c3_later_duplicate_wins [ColumnInfo.mk "a", ColumnInfo.mk "b", ColumnInfo.mk "a"]
    [[1, 2, 3]] [] 0 [1, 2, 3] [("a", 3), ("b", 2)]
    rfl (by rfl) 0 2 (ColumnInfo.mk "a") (ColumnInfo.mk "a") 3
    (by omega) rfl rfl rfl rfl
    (by
      intro k hk ck vk hck hvk
      rw [List.getElem?_eq_none hk] at hck
      cases hck)

/-- C9: for a row longer than the column list, values beyond the columns are
silently dropped: the record has at most as many keys as there are columns,
and every record entry comes from some column position aligned with a row
value. -/
theorem c9_long_row_truncated (cols : List ColumnInfo) (rows : List (List α))
    (rest : List (ResultBlock α)) (j : Nat) (row : List α) (rec : Record α)
    (hrow : rows[j]? = some row)
    (hrec : (parse_response (ResultBlock.mk (some cols) (some rows) :: rest))[j]? = some rec)
    (hlong : cols.length < row.length) :
    rec.length ≤ cols.length ∧
    ∀ q ∈ rec, ∃ i : Nat, ∃ ci : ColumnInfo, i < cols.length ∧ cols[i]? = some ci ∧
      q.1 = ci.name ∧ row[i]? = some q.2 := by
  rw [parse_response_getElem?] at hrec
  have hrec' : (rows[j]?).map (fun row => buildRow cols row) = some rec := hrec
  rw [hrow] at hrec'
  obtain rfl : rec = buildRow cols row := (Option.some.inj hrec').symm
  constructor
  · rw [buildRow_eq_buildRowRec]
    have h1 := length_buildRowRec_le cols row []
    have hz : (cols.zip row).length = cols.length := by
      rw [List.length_zip]
      omega
    simp only [List.length_nil] at h1
    omega
  · intro q hq
    rw [buildRow_eq_buildRowRec] at hq
    rcases mem_buildRowRec cols row [] q hq with h | ⟨p, hp, rfl⟩
    · simp at h
    · rcases List.mem_iff_getElem?.mp hp with ⟨i, hi⟩
      rcases List.getElem?_zip_eq_some.mp hi with ⟨hc, hv⟩
      have hilt : i < cols.length := (List.getElem?_eq_some_iff.mp hc).1
      exact ⟨i, p.1, hilt, hc, rfl, hv⟩

/-- Witness for C9: one column `a` against the longer row `[1, 2]`; the
record is `{'a': 1}` and the value `2` is dropped. -/
theorem c9_long_row_truncated_witness :
    ([("a", 1)] : Record Nat).length ≤ 1 ∧
    ∀ q ∈ ([("a", 1)] : Record Nat), ∃ i : Nat, ∃ ci : ColumnInfo,
      i < 1 ∧ ([ColumnInfo.mk "a"] : List ColumnInfo)[i]? = some ci ∧
      q.1 = ci.name ∧ [1, 2][i]? = some q.2 :=
  c9_long_row_truncated [ColumnInfo.mk "a"] [[1, 2]] [] 0 [1, 2] [("a", 1)]
    rfl (by rfl) (by decide)

/-- C7 as stated is false: with no explicit `api_key` argument and
`CAMBRIAN_API_KEY` set to the empty string, one of the two sources is
present (the env var is set), yet construction raises `ValueError`, because
`api_key or os.getenv(...)` yields `''` and `if not self.api_key` treats
the empty string as falsy. -/
theorem c7_counterexample :
    initOk (cambrianInit none none (some "") none) = false := rfl

/-- C7 (amended: the environment variable must be set to a NON-EMPTY value
to count as present): construction succeeds exactly when a non-empty
explicit key or a non-empty `CAMBRIAN_API_KEY` value exists, the explicit
parameter taking precedence, the environment used otherwise. -/
theorem c7_key_requirement_amended (api_key base_url env_api_key env_base_url : Option String) :
    (initOk (cambrianInit api_key base_url env_api_key env_base_url)
      = (pyTruthy api_key || pyTruthy env_api_key)) ∧
    (pyTruthy api_key = true →
      configKey (cambrianInit api_key base_url env_api_key env_base_url) = api_key) ∧
    (pyTruthy api_key = false → pyTruthy env_api_key = true →
      configKey (cambrianInit api_key base_url env_api_key env_base_url) = env_api_key) := by
  unfold cambrianInit pyOr
  cases api_key with
  | none =>
    cases env_api_key with
    | none => simp [pyTruthy, initOk, configKey]
    | some e =>
      by_cases he : e.isEmpty <;>
        simp [pyTruthy, he, initOk, configKey]
  | some s =>
    by_cases hs : s.isEmpty
    · cases env_api_key with
      | none => simp [pyTruthy, hs, initOk, configKey]
      | some e =>
        by_cases he : e.isEmpty <;>
          simp [pyTruthy, hs, he, initOk, configKey]
    · simp [pyTruthy, hs, initOk, configKey]

/-- Witness for the amended C7: an explicit key wins, and with no explicit
key a non-empty environment value is used. -/
theorem c7_key_requirement_amended_witness :
    configKey (cambrianInit (some "k") none (some "e") none) = some "k" ∧
    configKey (cambrianInit none none (some "e") none) = some "e" :=
  ⟨(c7_key_requirement_amended (some "k") none (some "e") none).2.1 (by decide),
   (c7_key_requirement_amended none none (some "e") none).2.2 (by decide) (by decide)⟩

/-- C8 as stated is false for a path with a leading slash: `_make_request`
strips leading slashes from the endpoint, so for path `/p` the target URL is
`base + "/p"`, not `base + "/" + "/p"`. -/
theorem c8_counterexample :
    makeRequestUrl "http://b" "/p" = "http://b/p" ∧
    "http://b" ++ "/" ++ "/p" = "http://b//p" ∧
    makeRequestUrl "http://b" "/p" ≠ "http://b" ++ "/" ++ "/p" := by
  refine ⟨by decide, by decide, by decide⟩

/-- C8 (amended): the URL is the stored base URL — the configured base with
trailing slashes removed at construction — plus `"/"` plus the path with
leading slashes removed; in particular it equals `base + "/" + path`
whenever the path has no leading slash. -/
theorem c8_url_amended (key base endpoint : String) (cfg : ClientConfig)
    (hinit : cambrianInit (some key) (some base) none none = Except.ok cfg)
    (hbase : base.isEmpty = false) :
    makeRequestUrl cfg.base_url endpoint
      = rstripSlashes base ++ "/" ++ lstripSlashes endpoint ∧
    (endpoint.data.head? ≠ some '/' →
      makeRequestUrl cfg.base_url endpoint = rstripSlashes base ++ "/" ++ endpoint) := by
  have hb : cfg.base_url = rstripSlashes base := by
    by_cases hk : key.isEmpty
    · simp [cambrianInit, pyOr, pyTruthy, hbase, hk] at hinit
    · simp [cambrianInit, pyOr, pyTruthy, hbase, hk] at hinit
      rw [← hinit]
  constructor
  · rw [hb]
    rfl
  · intro hne
    have hlist : List.dropWhile (fun c => decide (c = '/')) endpoint.data
        = endpoint.data := by
      cases hd : endpoint.data with
      | nil => rfl
      | cons c cs =>
        have hc : ¬(c = '/') := fun h => hne (by rw [hd, h]; rfl)
        rw [List.dropWhile_cons_of_neg (by simpa using hc)]
    have hl : lstripSlashes endpoint = endpoint := by
      show String.mk (List.dropWhile (fun c => decide (c = '/')) endpoint.data) = endpoint
      rw [hlist]
    rw [hb]
    show rstripSlashes base ++ "/" ++ lstripSlashes endpoint = _
    rw [hl]

/-- Witness for the amended C8: base `http://x/` (trailing slash) and plain
path `p` produce `http://x/p`. -/
theorem c8_url_amended_witness :
    makeRequestUrl "http://x" "p" = "http://x" ++ "/" ++ "p" :=
  (c8_url_amended "k" "http://x/" "p" (ClientConfig.mk "k" "http://x")
    (by rfl) (by rfl)).2 (by decide)

end Cambrian
